import Mathlib

/-!
Verification of the markdown transformation core of the book-boilerplate
pipeline (src/devops/merge.py, src/devops/entitize.py, src/devops/customize.py).

Documents are embedded as lists of characters (`List Char`), and line-oriented
processing as functions on `List (List Char)`.  Each definition is a direct
translation of the corresponding Python function.
-/

namespace Book

/-- A character is whitespace (models Python str.strip's whitespace test for
the ASCII whitespace relevant to this pipeline). -/
def isWS (c : Char) : Bool := c.isWhitespace

/-- Models Python `s.strip()`: drop whitespace from both ends. -/
def trimChars (l : List Char) : List Char :=
  ((l.dropWhile isWS).reverse.dropWhile isWS).reverse

/-! ### Entity substituter (src/devops/entitize.py, replace_entities) -/

/-- Matches `[a-zA-Z]` in the entity regex. -/
def isLetterChar (c : Char) : Bool :=
  (('a' ≤ c) && (c ≤ 'z')) || (('A' ≤ c) && (c ≤ 'Z'))

/-- Matches `[a-zA-Z0-9_]` in the entity regex. -/
def isIdentChar (c : Char) : Bool :=
  isLetterChar c || (('0' ≤ c) && (c ≤ '9')) || (c == '_')

/-- An entity name as accepted by the regex `&([a-zA-Z][a-zA-Z0-9_]*);`:
a letter followed by letters, digits or underscores. -/
def validIdent : List Char → Bool
  | [] => false
  | c :: cs => isLetterChar c && cs.all isIdentChar

theorem dropWhileLenLe {α : Type} (p : α → Bool) (xs : List α) :
    (xs.dropWhile p).length ≤ xs.length := by
  induction xs with
  | nil => simp
  | cons a as ih =>
    rw [List.dropWhile_cons]
    split
    · exact Nat.le_succ_of_le ih
    · simp

/-- Attempt to match the regex `&([a-zA-Z][a-zA-Z0-9_]*);` at the head of the
input.  Returns the captured name and the remainder after the `;`.  The
identifier part is greedy; since `;` is not an identifier character the greedy
match is the only possible one. -/
def matchEntity : List Char → Option (List Char × List Char)
  | a :: c :: rest =>
    if a = '&' ∧ isLetterChar c then
      match rest.dropWhile isIdentChar with
      | s :: rest2 => if s = ';' then some (c :: rest.takeWhile isIdentChar, rest2) else none
      | [] => none
    else none
  | _ => none

theorem matchEntity_length_lt {s name rest2 : List Char}
    (h : matchEntity s = some (name, rest2)) : rest2.length < s.length := by
  unfold matchEntity at h
  split at h
  next a c rest =>
    split at h
    next hcond =>
      split at h
      next s1 rest21 heq =>
        split at h
        next hs =>
          have hlen : (rest.dropWhile isIdentChar).length ≤ rest.length :=
            dropWhileLenLe _ _
          rw [heq] at hlen
          simp only [List.length_cons] at hlen
          simp only [Option.some.injEq, Prod.mk.injEq] at h
          obtain ⟨h1, h2⟩ := h
          subst h2
          simp only [List.length_cons]
          omega
        next => cases h
      next => cases h
    next => cases h
  next => cases h

/-- Models `replace_entities` from src/devops/entitize.py: a single
left-to-right pass replacing each `&name;` whose name is in the table by the
table's character, and leaving unknown references unchanged (the original
matched text is emitted and scanning resumes after it, exactly as
`re.sub` with a replacement callback does). -/
def replaceEntities (table : List (List Char × Char)) (s : List Char) : List Char :=
  match h : matchEntity s with
  | some (name, rest2) =>
    match List.lookup name table with
    | some ch => ch :: replaceEntities table rest2
    | none => '&' :: (name ++ ';' :: replaceEntities table rest2)
  | none =>
    match s with
    | [] => []
    | c :: rest => c :: replaceEntities table rest
termination_by s.length
decreasing_by
  all_goals first
  | exact matchEntity_length_lt h
  | simp

theorem replaceEntities_match_some (table : List (List Char × Char))
    {s name rest2 : List Char} (h : matchEntity s = some (name, rest2)) :
    replaceEntities table s =
      (match List.lookup name table with
       | some ch => ch :: replaceEntities table rest2
       | none => '&' :: (name ++ ';' :: replaceEntities table rest2)) := by
  rw [replaceEntities.eq_def]
  split
  next name2 rest22 h2 =>
    rw [h] at h2
    simp only [Option.some.injEq, Prod.mk.injEq] at h2
    obtain ⟨h3, h4⟩ := h2
    subst h3
    subst h4
    rfl
  next h2 =>
    rw [h] at h2
    cases h2

theorem replaceEntities_match_none (table : List (List Char × Char))
    {c : Char} {rest : List Char} (h : matchEntity (c :: rest) = none) :
    replaceEntities table (c :: rest) = c :: replaceEntities table rest := by
  rw [replaceEntities.eq_def]
  split
  next name2 rest22 h2 =>
    rw [h] at h2
    cases h2
  next => rfl

theorem replaceEntities_nil (table : List (List Char × Char)) :
    replaceEntities table [] = [] := by
  rw [replaceEntities.eq_def]
  split
  next name2 rest22 h2 =>
    simp [matchEntity] at h2
  next => rfl

theorem dropWhile_all_append {α : Type} (p : α → Bool) (xs ys : List α)
    (h : ∀ x ∈ xs, p x = true) :
    (xs ++ ys).dropWhile p = ys.dropWhile p := by
  induction xs with
  | nil => rfl
  | cons a as ih =>
    simp only [List.cons_append, List.dropWhile_cons]
    rw [h a (by simp)]
    simp only [ite_true]
    exact ih (fun x hx => h x (by simp [hx]))

theorem takeWhile_all_append {α : Type} (p : α → Bool) (xs ys : List α)
    (h : ∀ x ∈ xs, p x = true) :
    (xs ++ ys).takeWhile p = xs ++ ys.takeWhile p := by
  induction xs with
  | nil => rfl
  | cons a as ih =>
    simp only [List.cons_append, List.takeWhile_cons]
    rw [h a (by simp)]
    simp only [ite_true, List.cons.injEq, true_and]
    exact ih (fun x hx => h x (by simp [hx]))

theorem matchEntity_at_entity {n rest : List Char} (hn : validIdent n = true) :
    matchEntity ('&' :: (n ++ ';' :: rest)) = some (n, rest) := by
  match n with
  | [] => simp [validIdent] at hn
  | c :: cs =>
    simp only [validIdent, Bool.and_eq_true, List.all_eq_true] at hn
    obtain ⟨hc, hcs⟩ := hn
    simp only [List.cons_append]
    rw [matchEntity]
    rw [if_pos ⟨rfl, hc⟩]
    have hsemi : isIdentChar ';' = false := by decide
    rw [dropWhile_all_append isIdentChar cs (';' :: rest) hcs]
    rw [List.dropWhile_cons, hsemi]
    simp only [Bool.false_eq_true, ite_false]
    rw [takeWhile_all_append isIdentChar cs (';' :: rest) hcs]
    rw [List.takeWhile_cons, hsemi]
    simp

theorem replaceEntities_at_known (table : List (List Char × Char))
    {n : List Char} (rest : List Char) {ch : Char}
    (h1 : validIdent n = true) (h2 : List.lookup n table = some ch) :
    replaceEntities table ('&' :: (n ++ ';' :: rest)) =
      ch :: replaceEntities table rest := by
  rw [replaceEntities_match_some table (matchEntity_at_entity h1), h2]

theorem replaceEntities_at_unknown (table : List (List Char × Char))
    {n : List Char} (rest : List Char)
    (h1 : validIdent n = true) (h2 : List.lookup n table = none) :
    replaceEntities table ('&' :: (n ++ ';' :: rest)) =
      '&' :: (n ++ ';' :: replaceEntities table rest) := by
  rw [replaceEntities_match_some table (matchEntity_at_entity h1), h2]

/-- C3: for every entity name `n` present in the table, the substituter turns
each occurrence of `&n;` reached by its left-to-right scan into exactly the
table's character for `n`, with no residual `&` or `;`, and the scan resumes
after the consumed `;` (so the substituted character is never re-scanned as
part of a new entity reference).  In particular, with the table mapping
`eacute` to U+00E9, the document `caf&eacute;` becomes `café`. -/
theorem C3_entity_substitution (table : List (List Char × Char))
    (n rest : List Char) (ch : Char)
    (h1 : validIdent n = true) (h2 : List.lookup n table = some ch) :
    replaceEntities table ('&' :: (n ++ ';' :: rest)) =
        ch :: replaceEntities table rest ∧
    replaceEntities [("eacute".toList, 'é')] "caf&eacute;".toList =
        "café".toList := by
  refine ⟨replaceEntities_at_known table rest h1 h2, ?_⟩
  show replaceEntities [("eacute".toList, 'é')]
      ['c', 'a', 'f', '&', 'e', 'a', 'c', 'u', 't', 'e', ';'] = ['c', 'a', 'f', 'é']
  have t1 : validIdent "eacute".toList = true := by decide
  have t2 : List.lookup "eacute".toList [("eacute".toList, 'é')] = some 'é' := by
    decide
  have s1 : matchEntity ['c', 'a', 'f', '&', 'e', 'a', 'c', 'u', 't', 'e', ';'] = none := by
    decide
  have s2 : matchEntity ['a', 'f', '&', 'e', 'a', 'c', 'u', 't', 'e', ';'] = none := by
    decide
  have s3 : matchEntity ['f', '&', 'e', 'a', 'c', 'u', 't', 'e', ';'] = none := by
    decide
  rw [replaceEntities_match_none _ s1, replaceEntities_match_none _ s2,
    replaceEntities_match_none _ s3]
  have s4 := replaceEntities_at_known [("eacute".toList, 'é')] ([] : List Char) t1 t2
  rw [show replaceEntities [("eacute".toList, 'é')]
        ['&', 'e', 'a', 'c', 'u', 't', 'e', ';'] =
      'é' :: replaceEntities [("eacute".toList, 'é')] [] from s4]
  rw [replaceEntities_nil]

/-- Witness for C3 at a concrete instance: table `[(ab, X)]`, document
`&ab;!`. -/
theorem C3_entity_substitution_witness :
    replaceEntities [(['a', 'b'], 'X')] ('&' :: (['a', 'b'] ++ ';' :: ['!'])) =
        'X' :: replaceEntities [(['a', 'b'], 'X')] ['!'] ∧
    replaceEntities [("eacute".toList, 'é')] "caf&eacute;".toList =
        "café".toList :=
  C3_entity_substitution [(['a', 'b'], 'X')] ['a', 'b'] ['!'] 'X'
    (by decide) (by decide)

/-- C7: an entity reference `&n;` whose name is absent from the table is
preserved byte-for-byte in the output, and the scan continues past it. -/
theorem C7_unknown_entity_preserved (table : List (List Char × Char))
    (n rest : List Char)
    (h1 : validIdent n = true) (h2 : List.lookup n table = none) :
    replaceEntities table ('&' :: (n ++ ';' :: rest)) =
      '&' :: (n ++ ';' :: replaceEntities table rest) :=
  replaceEntities_at_unknown table rest h1 h2

/-- Witness for C7 at a concrete instance: table `[(ab, X)]`, unknown name
`cd`. -/
theorem C7_unknown_entity_preserved_witness :
    replaceEntities [(['a', 'b'], 'X')] ('&' :: (['c', 'd'] ++ ';' :: ['!'])) =
      '&' :: (['c', 'd'] ++ ';' :: replaceEntities [(['a', 'b'], 'X')] ['!']) :=
  C7_unknown_entity_preserved [(['a', 'b'], 'X')] ['c', 'd'] ['!']
    (by decide) (by decide)

/-! ### Heading demotion (src/devops/merge.py, demote_headers) -/

/-- Models `line.strip().startswith('#')`. -/
def startsWithHash (l : List Char) : Bool :=
  match trimChars l with
  | c :: _ => c == '#'
  | [] => false

/-- Models `next_line.strip() and all(c in u for c in next_line.strip())` for
a one-character class `u`: the trimmed line is non-empty and consists solely
of the character `u`. -/
def isUnderline (u : Char) (l : List Char) : Bool :=
  !(trimChars l).isEmpty && (trimChars l).all (fun c => c == u)

/-- Models the line loop of `demote_headers`: a `#`-heading line gets one
more `#`; otherwise, if the next line is a non-blank pure `=` (resp. `-`)
underline, the pair becomes `'## ' + line` (resp. `'### ' + line`) plus an
empty line, and the underline is consumed; all other lines pass through. -/
def demoteLines : List (List Char) → List (List Char)
  | [] => []
  | [l] => if startsWithHash l then ['#' :: l] else [l]
  | l :: next :: rest =>
    if startsWithHash l then ('#' :: l) :: demoteLines (next :: rest)
    else if isUnderline '=' next then
      ('#' :: '#' :: ' ' :: l) :: [] :: demoteLines rest
    else if isUnderline '-' next then
      ('#' :: '#' :: '#' :: ' ' :: l) :: [] :: demoteLines rest
    else l :: demoteLines (next :: rest)

/-- Models Python `content.split('\n')`. -/
def splitNL : List Char → List (List Char)
  | [] => [[]]
  | c :: rest =>
    if c = '\n' then [] :: splitNL rest
    else
      match splitNL rest with
      | [] => [[c]]
      | l :: ls => (c :: l) :: ls

/-- Models Python `'\n'.join(lines)`. -/
def joinNL : List (List Char) → List Char
  | [] => []
  | [l] => l
  | l :: l2 :: rest => l ++ '\n' :: joinNL (l2 :: rest)

/-- Models `demote_headers` from src/devops/merge.py. -/
def demoteHeaders (s : List Char) : List Char :=
  joinNL (demoteLines (splitNL s))

theorem splitNL_no_newline {l : List Char} (h : '\n' ∉ l) : splitNL l = [l] := by
  induction l with
  | nil => rfl
  | cons c rest ih =>
    have hc : ¬ (c = '\n') := fun hc => h (by simp [hc])
    rw [splitNL, if_neg hc, ih (fun hm => h (List.mem_cons_of_mem c hm))]

theorem splitNL_append_newline {l r : List Char} (h : '\n' ∉ l) :
    splitNL (l ++ '\n' :: r) = l :: splitNL r := by
  induction l with
  | nil => simp [splitNL]
  | cons c rest ih =>
    have hc : ¬ (c = '\n') := fun hc => h (by simp [hc])
    rw [List.cons_append, splitNL, if_neg hc,
      ih (fun hm => h (List.mem_cons_of_mem c hm))]

theorem splitNL_joinNL {ls : List (List Char)} (hne : ls ≠ [])
    (hnl : ∀ l ∈ ls, '\n' ∉ l) : splitNL (joinNL ls) = ls := by
  induction ls with
  | nil => exact absurd rfl hne
  | cons l rest ih =>
    match rest with
    | [] => exact splitNL_no_newline (hnl l (by simp))
    | l2 :: rest2 =>
      rw [joinNL, splitNL_append_newline (hnl l (by simp))]
      rw [ih (by simp) (fun x hx => hnl x (List.mem_cons_of_mem l hx))]

theorem dropWhile_append_neg {α : Type} {p : α → Bool} {a : α}
    (ha : p a = false) (xs ys : List α) :
    (xs ++ a :: ys).dropWhile p = xs.dropWhile p ++ a :: ys := by
  induction xs with
  | nil => simp [List.dropWhile_cons, ha]
  | cons x xt ih =>
    simp only [List.cons_append, List.dropWhile_cons]
    split
    · exact ih
    · rfl

theorem trimChars_cons_not_ws {c : Char} (hc : isWS c = false) (l : List Char) :
    trimChars (c :: l) = c :: (l.reverse.dropWhile isWS).reverse := by
  unfold trimChars
  rw [List.dropWhile_cons, hc]
  simp only [Bool.false_eq_true, ite_false]
  rw [List.reverse_cons, dropWhile_append_neg hc, List.reverse_append]
  rfl

theorem startsWithHash_cons_hash (l : List Char) :
    startsWithHash ('#' :: l) = true := by
  rw [startsWithHash, trimChars_cons_not_ws (by decide : isWS '#' = false)]
  simp

theorem demoteLines_all_hash {ls : List (List Char)}
    (h : ∀ l ∈ ls, startsWithHash l = true) :
    demoteLines ls = ls.map (fun l => '#' :: l) := by
  induction ls with
  | nil => rfl
  | cons l rest ih =>
    match rest with
    | [] => simp [demoteLines, h l (by simp)]
    | l2 :: rest2 =>
      rw [demoteLines, if_pos (h l (by simp))]
      rw [ih (fun x hx => h x (List.mem_cons_of_mem l hx))]
      rfl

theorem joinNL_map_hash_length {ls : List (List Char)} (hne : ls ≠ []) :
    (joinNL (ls.map (fun l => '#' :: l))).length = (joinNL ls).length + ls.length := by
  induction ls with
  | nil => exact absurd rfl hne
  | cons l rest ih =>
    match rest with
    | [] => simp [joinNL]
    | l2 :: rest2 =>
      have ih2 := ih (by simp)
      simp only [List.map_cons] at ih2 ⊢
      simp only [joinNL] at ih2 ⊢
      simp only [List.length_append, List.length_cons] at ih2 ⊢
      omega

theorem underline_dash_not_eq {next : List Char}
    (h : isUnderline '-' next = true) : isUnderline '=' next = false := by
  simp only [isUnderline, Bool.and_eq_true, List.all_eq_true] at h
  obtain ⟨h1, h2⟩ := h
  cases ht : trimChars next with
  | nil => rw [ht] at h1; simp at h1
  | cons c cs =>
    rw [ht] at h2
    have hc := h2 c (by simp)
    simp only [beq_iff_eq] at hc
    simp [isUnderline, ht, hc]

/-- C2 counterexample: the claim "the conversion applies only when the
heading line is non-blank" is false on the code.  A blank line followed by a
pure `=` underline IS converted into `'## '` plus a blank line (first two
conjuncts).  Moreover a heading line whose trimmed form starts with `#` is
demoted by the `#`-branch and its underline is NOT consumed (third conjunct),
and an underline only needs its TRIMMED content to be pure `=` (fourth
conjunct). -/
theorem C2_counterexample :
    demoteLines [[], ['=']] = [['#', '#', ' '], []] ∧
    demoteLines [[], ['=']] ≠ [[], ['=']] ∧
    demoteLines [['#', 'A'], ['=']] = [['#', '#', 'A'], ['=']] ∧
    demoteLines [['A'], [' ', '=', ' ']] = [['#', '#', ' ', 'A'], []] := by
  decide

/-- C2 (amended): for a line whose trimmed form does not start with `#`,
immediately followed by a line whose trimmed content is non-empty and
consists solely of `=` (resp. `-`) characters, heading demotion replaces the
pair by the single line `'## ' + line` (resp. `'### ' + line`) followed by an
empty line in place of the underline, and the underline is consumed exactly
once (the scan resumes after it, so it is never re-examined as a heading
candidate); the heading line is not required to be non-blank. -/
theorem C2_setext_demotion (l next : List Char) (rest : List (List Char))
    (hl : startsWithHash l = false) :
    (isUnderline '=' next = true →
      demoteLines (l :: next :: rest) =
        ('#' :: '#' :: ' ' :: l) :: [] :: demoteLines rest) ∧
    (isUnderline '-' next = true →
      demoteLines (l :: next :: rest) =
        ('#' :: '#' :: '#' :: ' ' :: l) :: [] :: demoteLines rest) := by
  constructor
  · intro hu
    rw [demoteLines, if_neg (by simp [hl]), if_pos hu]
  · intro hu
    rw [demoteLines, if_neg (by simp [hl]),
      if_neg (by simp [underline_dash_not_eq hu]), if_pos hu]

/-- Witness for C2 (amended) at the concrete input `["T", "="]`. -/
theorem C2_setext_demotion_witness :
    startsWithHash ['T'] = false ∧
    demoteLines [['T'], ['=']] = [['#', '#', ' ', 'T'], []] := by
  refine ⟨by decide, ?_⟩
  have h := (C2_setext_demotion ['T'] ['='] [] (by decide)).1 (by decide)
  rw [h]
  rfl

/-- C8: heading demotion is a pure +1-level transform and not a fixed point:
on a document all of whose lines are `#`-headings (and contain no embedded
newline), one application prepends exactly one `#` to every line, a second
application prepends another, and the twice-demoted document is never equal
to the once-demoted one. -/
theorem C8_demotion_plus_one (ls : List (List Char))
    (hne : ls ≠ [])
    (hhash : ∀ l ∈ ls, startsWithHash l = true)
    (hnl : ∀ l ∈ ls, '\n' ∉ l) :
    demoteHeaders (joinNL ls) = joinNL (ls.map (fun l => '#' :: l)) ∧
    demoteHeaders (demoteHeaders (joinNL ls)) =
      joinNL (ls.map (fun l => '#' :: '#' :: l)) ∧
    demoteHeaders (demoteHeaders (joinNL ls)) ≠ demoteHeaders (joinNL ls) := by
  have e1 : demoteHeaders (joinNL ls) = joinNL (ls.map (fun l => '#' :: l)) := by
    rw [demoteHeaders, splitNL_joinNL hne hnl, demoteLines_all_hash hhash]
  have hne2 : ls.map (fun l => '#' :: l) ≠ [] := by
    intro h
    apply hne
    have hlen := congrArg List.length h
    simp at hlen
    exact hlen
  have hnl2 : ∀ l ∈ ls.map (fun l => '#' :: l), '\n' ∉ l := by
    intro l hl
    obtain ⟨x, hx, rfl⟩ := List.mem_map.mp hl
    intro hmem
    rcases List.mem_cons.mp hmem with h | h
    · exact absurd h (by decide)
    · exact hnl x hx h
  have hhash2 : ∀ l ∈ ls.map (fun l => '#' :: l), startsWithHash l = true := by
    intro l hl
    obtain ⟨x, hx, rfl⟩ := List.mem_map.mp hl
    exact startsWithHash_cons_hash x
  have e2 : demoteHeaders (joinNL (ls.map (fun l => '#' :: l))) =
      joinNL (ls.map (fun l => '#' :: '#' :: l)) := by
    rw [demoteHeaders, splitNL_joinNL hne2 hnl2, demoteLines_all_hash hhash2,
      List.map_map]
    rfl
  refine ⟨e1, by rw [e1, e2], ?_⟩
  rw [e1, e2]
  intro heq
  have hL := joinNL_map_hash_length hne2
  rw [List.map_map] at hL
  have hlen := congrArg List.length heq
  rw [show ls.map (fun l => '#' :: '#' :: l) =
    ls.map ((fun l => '#' :: l) ∘ (fun l => '#' :: l)) from rfl] at hlen
  rw [hL] at hlen
  simp only [List.length_map] at hlen
  have hzero : ls.length = 0 := by omega
  exact hne (List.length_eq_zero.mp hzero)

/-- Witness for C8 at the concrete one-line document `"# A"`. -/
theorem C8_demotion_plus_one_witness :
    demoteHeaders (joinNL [['#', ' ', 'A']]) =
      joinNL ([['#', ' ', 'A']].map (fun l => '#' :: l)) ∧
    demoteHeaders (demoteHeaders (joinNL [['#', ' ', 'A']])) =
      joinNL ([['#', ' ', 'A']].map (fun l => '#' :: '#' :: l)) ∧
    demoteHeaders (demoteHeaders (joinNL [['#', ' ', 'A']])) ≠
      demoteHeaders (joinNL [['#', ' ', 'A']]) :=
  C8_demotion_plus_one [['#', ' ', 'A']] (by decide) (by decide) (by decide)

/-! ### Style customizer (src/devops/customize.py, process_file) -/

/-- Models `stripped.startswith(':::')`. -/
def startsWithFence (l : List Char) : Bool :=
  [':', ':', ':'].isPrefixOf (trimChars l)

/-- Models `stripped == ':::'`. -/
def isFenceClose (l : List Char) : Bool :=
  trimChars l == [':', ':', ':']

/-- Models the line loop of `process_file`: `buf` is the accumulated run of
non-fenced lines, the Bool flag is `in_fenced`.  The result is the list of
output chunks (`out_lines` in the source): styled segments and verbatim
fence lines.  The application of the style rule set to a segment
(`apply_styles` with a fixed rules configuration) is abstracted as `f`. -/
def customizeAux (f : List Char → List Char) :
    List (List Char) → List (List Char) → Bool → List (List Char)
  | [], buf, _ => if buf.isEmpty then [] else [f buf.flatten]
  | l :: ls, buf, false =>
    if startsWithFence l then
      (if buf.isEmpty then [] else [f buf.flatten]) ++
        l :: customizeAux f ls [] true
    else customizeAux f ls (buf ++ [l]) false
  | l :: ls, buf, true =>
    l :: customizeAux f ls buf (if isFenceClose l then false else true)

/-- Models `process_file`'s content transformation: the concatenation of the
output chunks, starting with an empty buffer outside any fence. -/
def processDoc (f : List Char → List Char) (lines : List (List Char)) : List Char :=
  (customizeAux f lines [] false).flatten

/-- The fence flag after scanning a list of lines. -/
def fenceState : List (List Char) → Bool → Bool
  | [], s => s
  | l :: ls, false => fenceState ls (if startsWithFence l then true else false)
  | l :: ls, true => fenceState ls (if isFenceClose l then false else true)

theorem customizeAux_append (f : List Char → List Char) (pre : List (List Char)) :
    ∀ (rest buf : List (List Char)) (s : Bool), ∃ out buf2,
      customizeAux f (pre ++ rest) buf s =
        out ++ customizeAux f rest buf2 (fenceState pre s) := by
  induction pre with
  | nil => exact fun rest buf s => ⟨[], buf, rfl⟩
  | cons l pre' ih =>
    intro rest buf s
    cases s with
    | false =>
      by_cases hl : startsWithFence l = true
      · obtain ⟨out', buf2, h⟩ := ih rest [] true
        refine ⟨(if buf.isEmpty then [] else [f buf.flatten]) ++ l :: out', buf2, ?_⟩
        rw [List.cons_append, customizeAux, if_pos hl, h]
        rw [show fenceState (l :: pre') false = fenceState pre' true by
          rw [fenceState, if_pos hl]]
        simp [List.append_assoc]
      · obtain ⟨out', buf2, h⟩ := ih rest (buf ++ [l]) false
        refine ⟨out', buf2, ?_⟩
        rw [List.cons_append, customizeAux, if_neg hl, h]
        rw [show fenceState (l :: pre') false = fenceState pre' false by
          rw [fenceState, if_neg hl]]
    | true =>
      obtain ⟨out', buf2, h⟩ := ih rest buf (if isFenceClose l then false else true)
      refine ⟨l :: out', buf2, ?_⟩
      rw [List.cons_append, customizeAux, h]
      rw [show fenceState (l :: pre') true =
        fenceState pre' (if isFenceClose l then false else true) from rfl]
      rw [List.cons_append]

theorem customizeAux_fenced (f : List Char → List Char) (mid : List (List Char))
    (closer : List Char) (post buf : List (List Char))
    (hmid : ∀ l ∈ mid, isFenceClose l = false)
    (hclose : isFenceClose closer = true) :
    customizeAux f (mid ++ closer :: post) buf true =
      mid ++ closer :: customizeAux f post buf false := by
  induction mid with
  | nil =>
    rw [List.nil_append, customizeAux, hclose]
    rfl
  | cons m mid' ih =>
    rw [List.cons_append, customizeAux, hmid m (by simp)]
    simp only [Bool.false_eq_true, ite_false]
    rw [ih (fun x hx => hmid x (List.mem_cons_of_mem m hx))]
    rfl

theorem customizeAux_fenced_no_close (f : List Char → List Char)
    (rest : List (List Char))
    (hrest : ∀ l ∈ rest, isFenceClose l = false) :
    customizeAux f rest [] true = rest := by
  induction rest with
  | nil => rfl
  | cons l ls ih =>
    rw [customizeAux, hrest l (by simp)]
    simp only [Bool.false_eq_true, ite_false]
    rw [ih (fun x hx => hrest x (List.mem_cons_of_mem l hx))]

/-- C1: for every style function and every document, a fence block — an
opening line reached outside any fence whose trimmed content starts with
`:::`, the following lines up to (exclusive) the next line trimming to
exactly `:::`, and that closing line — appears byte-for-byte contiguously in
the output of the fence-aware processing. -/
theorem C1_fence_block_verbatim (f : List Char → List Char)
    (pre mid post : List (List Char)) (opener closer : List Char)
    (hpre : fenceState pre false = false)
    (hopen : startsWithFence opener = true)
    (hmid : ∀ l ∈ mid, isFenceClose l = false)
    (hclose : isFenceClose closer = true) :
    ∃ A B, processDoc f (pre ++ opener :: (mid ++ closer :: post)) =
      A ++ (opener ++ mid.flatten ++ closer) ++ B := by
  obtain ⟨out, buf2, hsplit⟩ :=
    customizeAux_append f pre (opener :: (mid ++ closer :: post)) [] false
  rw [hpre] at hsplit
  rw [customizeAux, if_pos hopen,
    customizeAux_fenced f mid closer post [] hmid hclose] at hsplit
  refine ⟨out.flatten ++ (if buf2.isEmpty then [] else [f buf2.flatten]).flatten,
    (customizeAux f post [] false).flatten, ?_⟩
  rw [processDoc, hsplit]
  simp [List.flatten_append, List.append_assoc]

/-- Witness for C1 at a concrete document and style function. -/
theorem C1_fence_block_verbatim_witness :
    fenceState [['p']] false = false ∧
    startsWithFence [':', ':', ':', 'a'] = true ∧
    isFenceClose [':', ':', ':'] = true ∧
    ∃ A B, processDoc (fun _ => ['Z'])
        ([['p']] ++ [':', ':', ':', 'a'] :: ([['m']] ++ [':', ':', ':'] :: [['q']])) =
      A ++ ([':', ':', ':', 'a'] ++ [['m']].flatten ++ [':', ':', ':']) ++ B :=
  ⟨by decide, by decide, by decide,
    C1_fence_block_verbatim (fun _ => ['Z']) [['p']] [['m']] [['q']]
      [':', ':', ':', 'a'] [':', ':', ':'] (by decide) (by decide)
      (by decide) (by decide)⟩

/-- C10: if a line that opens a fence (reached outside any fence, trimmed
content starting with `:::`) is never followed by a closing `:::` line, then
the whole suffix of the document from that opener on is emitted verbatim at
the end of the output, with no style rule applied to it. -/
theorem C10_unterminated_fence (f : List Char → List Char)
    (pre rest : List (List Char)) (opener : List Char)
    (hpre : fenceState pre false = false)
    (hopen : startsWithFence opener = true)
    (hrest : ∀ l ∈ rest, isFenceClose l = false) :
    ∃ A, processDoc f (pre ++ opener :: rest) = A ++ (opener ++ rest.flatten) := by
  obtain ⟨out, buf2, hsplit⟩ := customizeAux_append f pre (opener :: rest) [] false
  rw [hpre] at hsplit
  rw [customizeAux, if_pos hopen, customizeAux_fenced_no_close f rest hrest] at hsplit
  refine ⟨out.flatten ++ (if buf2.isEmpty then [] else [f buf2.flatten]).flatten, ?_⟩
  rw [processDoc, hsplit]
  simp [List.flatten_append, List.append_assoc]

/-- Witness for C10 at a concrete document and style function. -/
theorem C10_unterminated_fence_witness :
    fenceState [['p']] false = false ∧
    startsWithFence [':', ':', ':', 'a'] = true ∧
    ∃ A, processDoc (fun _ => ['Z'])
        ([['p']] ++ [':', ':', ':', 'a'] :: [['m'], ['q']]) =
      A ++ ([':', ':', ':', 'a'] ++ [['m'], ['q']].flatten) :=
  ⟨by decide, by decide,
    C10_unterminated_fence (fun _ => ['Z']) [['p']] [['m'], ['q']]
      [':', ':', ':', 'a'] (by decide) (by decide) (by decide)⟩

theorem customizeAux_no_fence (f : List Char → List Char) :
    ∀ (lines buf : List (List Char)),
      (∀ l ∈ lines, startsWithFence l = false) →
      (buf.isEmpty = false ∨ lines ≠ []) →
      customizeAux f lines buf false = [f (buf ++ lines).flatten] := by
  intro lines
  induction lines with
  | nil =>
    intro buf _ hne
    rcases hne with h | h
    · rw [customizeAux, h]
      simp
    · exact absurd rfl h
  | cons l ls ih =>
    intro buf hnf _
    rw [customizeAux, if_neg (by simp [hnf l (by simp)])]
    rw [ih (buf ++ [l]) (fun x hx => hnf x (List.mem_cons_of_mem l hx))
      (Or.inl (by simp))]
    rw [List.append_assoc]
    rfl

/-- Models `apply_styles` for the single valid style rule with pattern `^$`
and replacement `X` under `re.MULTILINE`: every empty line of the text —
including the empty text itself, which `^$` matches — is replaced by `X`. -/
def subEmptyLineX (s : List Char) : List Char :=
  joinNL ((splitNL s).map (fun l => if l.isEmpty then ['X'] else l))

/-- C4 counterexample: the claim fails on the empty document (which contains
no fence-opening line).  The fence-aware processing of the empty document
emits the empty document without invoking the rules, while applying the
valid rule `^$ → X` (multi-line) directly to the whole text yields `X`. -/
theorem C4_counterexample :
    processDoc subEmptyLineX [] ≠ subEmptyLineX ([] : List (List Char)).flatten := by
  decide

/-- C4 (amended): for every NON-EMPTY document with no fence-opening line
and every style function, the segment-based fence-aware processing produces
the same output as applying the style function once to the whole document
text.  (For the empty document the two sides can differ, since the rules are
never invoked on an empty line list.) -/
theorem C4_no_fence_refinement (f : List Char → List Char)
    (lines : List (List Char)) (hne : lines ≠ [])
    (hnf : ∀ l ∈ lines, startsWithFence l = false) :
    processDoc f lines = f lines.flatten := by
  rw [processDoc, customizeAux_no_fence f lines [] hnf (Or.inr hne)]
  simp

/-- Witness for C4 (amended) at a concrete document and the `^$ → X` rule. -/
theorem C4_no_fence_refinement_witness :
    processDoc subEmptyLineX [['a', '\n'], ['b']] =
      subEmptyLineX ([['a', '\n'], ['b']] : List (List Char)).flatten :=
  C4_no_fence_refinement subEmptyLineX [['a', '\n'], ['b']] (by decide) (by decide)

/-! ### Volume merge (src/devops/merge.py, merge_volume) -/

/-- Code-point lexicographic strict order on char lists, as Python compares
the path strings when sorting the globbed files. -/
def lexLt : List Char → List Char → Bool
  | [], [] => false
  | [], _ :: _ => true
  | _ :: _, [] => false
  | a :: as, b :: bs => if a < b then true else if b < a then false else lexLt as bs

/-- One insertion step of sorting by filename. -/
def insertByName (x : List Char × List Char) :
    List (List Char × List Char) → List (List Char × List Char)
  | [] => [x]
  | y :: ys => if lexLt y.1 x.1 then y :: insertByName x ys else x :: y :: ys

/-- Models `sorted(...)` on the globbed files: sort by filename in
code-point order. -/
def sortByName : List (List Char × List Char) → List (List Char × List Char)
  | [] => []
  | x :: xs => insertByName x (sortByName xs)

/-- Models the file selection `volume_input_dir.glob('*.md')` with the
`.tmp.md` exclusion: a file participates iff its name ends in `.md` but not
in `.tmp.md`. -/
def eligible (name : List Char) : Bool :=
  (['.', 'm', 'd'].isSuffixOf name) &&
    !(['.', 't', 'm', 'p', '.', 'm', 'd'].isSuffixOf name)

/-- Models `'\n\n'.join(merged_content)`. -/
def joinBlank : List (List Char) → List Char
  | [] => []
  | [l] => l
  | l :: l2 :: rest => l ++ '\n' :: '\n' :: joinBlank (l2 :: rest)

/-- Models the content construction of `merge_volume`: the heading line
`# <title>\n`, then each eligible file's demoted content in sorted filename
order, joined with a blank-line separator.  `files` are the (name, content)
pairs found in the volume's input directory. -/
def mergeVolume (title : List Char) (files : List (List Char × List Char)) :
    List Char :=
  joinBlank (('#' :: ' ' :: (title ++ ['\n'])) ::
    (sortByName (files.filter (fun p => eligible p.1))).map
      (fun p => demoteHeaders p.2))

/-- C5: the merged document for a volume begins with the single top-level
heading line `# <title>`, and for input files `a.md`, `b.md` (listed here in
reverse order to exercise the sort) the output is exactly the heading,
`a.md`'s demoted content, then `b.md`'s demoted content, joined by
blank-line separators. -/
theorem C5_merge_volume_order (title A B T : List Char)
    (files : List (List Char × List Char))
    (hne : sortByName (files.filter (fun p => eligible p.1)) ≠ []) :
    List.IsPrefix ('#' :: ' ' :: (title ++ ['\n'])) (mergeVolume title files) ∧
    mergeVolume title [(['b', '.', 'm', 'd'], B),
        (['x', '.', 't', 'm', 'p', '.', 'm', 'd'], T), (['a', '.', 'm', 'd'], A)] =
      '#' :: ' ' :: (title ++ '\n' :: '\n' :: '\n' ::
        (demoteHeaders A ++ '\n' :: '\n' :: demoteHeaders B)) := by
  constructor
  · rw [mergeVolume]
    cases hs : (sortByName (files.filter (fun p => eligible p.1))).map
        (fun p => demoteHeaders p.2) with
    | nil => exact ⟨[], by rw [joinBlank]; simp⟩
    | cons c cs =>
      rw [joinBlank]
      exact ⟨'\n' :: '\n' :: joinBlank (c :: cs), by simp⟩
  · rw [mergeVolume]
    rw [show ([(['b', '.', 'm', 'd'], B),
        (['x', '.', 't', 'm', 'p', '.', 'm', 'd'], T),
        (['a', '.', 'm', 'd'], A)]).filter (fun p => eligible p.1) =
      [(['b', '.', 'm', 'd'], B), (['a', '.', 'm', 'd'], A)] from rfl]
    rw [show sortByName [(['b', '.', 'm', 'd'], B), (['a', '.', 'm', 'd'], A)] =
      [(['a', '.', 'm', 'd'], A), (['b', '.', 'm', 'd'], B)] from rfl]
    rw [List.map_cons, List.map_cons, List.map_nil]
    simp [joinBlank, List.append_assoc]

/-- Witness for C5 with a one-file list discharging the non-emptiness
hypothesis. -/
theorem C5_merge_volume_order_witness :
    sortByName (([(['c', '.', 'm', 'd'], ['w'])]).filter
        (fun p => eligible p.1)) ≠ [] ∧
    List.IsPrefix ('#' :: ' ' :: (['T'] ++ ['\n']))
      (mergeVolume ['T'] [(['c', '.', 'm', 'd'], ['w'])]) :=
  ⟨by decide,
    (C5_merge_volume_order ['T'] ['x'] ['y'] ['z'] [(['c', '.', 'm', 'd'], ['w'])]
      (by decide)).1⟩

/-! ### Merge run exit status (src/devops/merge.py, main) -/

/-- The environment facts `merge_volume` consults for one volume: whether its
input subdirectory exists, and whether that directory contains at least one
`.md` file not ending in `.tmp.md`. -/
structure VolumeEnv where
  dirExists : Bool
  hasMdFiles : Bool
  deriving DecidableEq

/-- `merge_volume` writes a merged file (the volume succeeds) iff the input
directory exists and eligible markdown files are found; otherwise it logs a
warning and returns without writing. -/
def volumeSucceeds (e : VolumeEnv) : Bool := e.dirExists && e.hasMdFiles

/-- Models `main` of src/devops/merge.py on its happy path (no I/O
exceptions): exit 1 if the configuration file is missing, if no volumes are
configured, or if a `-vol` argument names an undeclared volume; otherwise
process the (selected) volumes — whose outcomes are ignored — and exit 0. -/
def mergeMainExit (configExists : Bool)
    (volumes : List (String × VolumeEnv)) (volArg : Option String) : Nat :=
  if !configExists then 1
  else if volumes.isEmpty then 1
  else
    match volArg with
    | some v => if (volumes.map Prod.fst).contains v then 0 else 1
    | none => 0

/-- The volumes a run actually processes. -/
def processedVolumes (volumes : List (String × VolumeEnv))
    (volArg : Option String) : List (String × VolumeEnv) :=
  match volArg with
  | some v => volumes.filter (fun p => p.1 == v)
  | none => volumes

/-- Number of processed volumes that succeed (write a merged file). -/
def succeededCount (volumes : List (String × VolumeEnv))
    (volArg : Option String) : Nat :=
  ((processedVolumes volumes volArg).filter (fun p => volumeSucceeds p.2)).length

/-- C6 counterexample: a run whose configuration exists and declares one
volume whose input subdirectory is absent has zero succeeded volumes, yet
exits 0 — refuting "nonzero exit exactly when zero volumes succeeded or a
required configuration artifact was missing". -/
theorem C6_counterexample :
    ¬ (mergeMainExit true [("volume-001", ⟨false, false⟩)] none ≠ 0 ↔
        (succeededCount [("volume-001", ⟨false, false⟩)] none = 0 ∨
          true = false)) := by
  decide

/-- C6 (amended): a Merger run exits nonzero exactly when the configuration
file is missing, the configuration declares no volumes, or an explicitly
requested volume is not declared.  Per-volume skips do not influence the
exit status: in particular a run in which every volume is skipped still
exits 0. -/
theorem C6_exit_status (configExists : Bool)
    (volumes : List (String × VolumeEnv)) (volArg : Option String) :
    mergeMainExit configExists volumes volArg ≠ 0 ↔
      (configExists = false ∨ volumes = [] ∨
        ∃ v, volArg = some v ∧ (volumes.map Prod.fst).contains v = false) := by
  unfold mergeMainExit
  cases configExists with
  | false => simp
  | true =>
    simp only [Bool.not_true, Bool.false_eq_true, ite_false]
    cases volumes with
    | nil => simp
    | cons p ps =>
      simp only [List.isEmpty_cons, Bool.false_eq_true, ite_false]
      cases volArg with
      | none => simp
      | some v =>
        by_cases hv : ((p :: ps).map Prod.fst).contains v = true
        · simp [hv]
        · simp only [Bool.not_eq_true] at hv
          simp [hv]

/-! ### Style rule selection (src/devops/customize.py, apply_styles) -/

/-- One style rule: a regex pattern and a replacement template, as text
(`pattern_def.get('pattern', '')` and `pattern_def.get('replacement', '')`;
a missing key yields the empty string). -/
structure StyleRule where
  pattern : List Char
  replacement : List Char

/-- Models the rule loop of `apply_styles`, with the rules of all styles
flattened in declaration order: a rule is applied — via the regex
substitution engine, abstracted as `sub pattern replacement content` — only
when both its pattern and its replacement are non-empty; otherwise the rule
is skipped and the content passed on unchanged. -/
def applyStyles (sub : List Char → List Char → List Char → List Char)
    (rules : List StyleRule) (content : List Char) : List Char :=
  match rules with
  | [] => content
  | r :: rs =>
    if !r.pattern.isEmpty && !r.replacement.isEmpty then
      applyStyles sub rs (sub r.pattern r.replacement content)
    else applyStyles sub rs content

theorem applyStyles_skip (sub : List Char → List Char → List Char → List Char)
    (r : StyleRule) (hr : (!r.pattern.isEmpty && !r.replacement.isEmpty) = false)
    (rules : List StyleRule) (content : List Char) :
    applyStyles sub (r :: rules) content = applyStyles sub rules content := by
  rw [applyStyles, if_neg (by simp [hr])]

theorem applyStyles_filter (sub : List Char → List Char → List Char → List Char)
    (rules : List StyleRule) :
    ∀ content, applyStyles sub rules content =
      applyStyles sub
        (rules.filter (fun r => !r.pattern.isEmpty && !r.replacement.isEmpty))
        content := by
  induction rules with
  | nil => intro content; rfl
  | cons r rs ih =>
    intro content
    by_cases hr : (!r.pattern.isEmpty && !r.replacement.isEmpty) = true
    · rw [applyStyles, if_pos hr]
      rw [show List.filter (fun r => !r.pattern.isEmpty && !r.replacement.isEmpty)
            (r :: rs) =
          r :: List.filter (fun r => !r.pattern.isEmpty && !r.replacement.isEmpty) rs
        from by simp [List.filter_cons, hr]]
      rw [applyStyles, if_pos hr, ih]
    · rw [applyStyles_skip sub r (by simpa using hr)]
      rw [show List.filter (fun r => !r.pattern.isEmpty && !r.replacement.isEmpty)
            (r :: rs) =
          List.filter (fun r => !r.pattern.isEmpty && !r.replacement.isEmpty) rs
        from by
          have hr2 : (!r.pattern.isEmpty && !r.replacement.isEmpty) = false :=
            Bool.of_not_eq_true hr
          simp [List.filter_cons, hr2]]
      rw [ih]

/-- C9: a style rule whose replacement is empty (first conjunct) or whose
pattern is empty (second conjunct) is skipped: it is never applied to any
segment, and removing all such rules changes nothing (third conjunct); in
particular a deletion rule with an empty replacement has no effect on the
fence-aware processing of any document (fourth conjunct).  `sub` is the
abstract regex substitution engine. -/
theorem C9_empty_rule_skipped
    (sub : List Char → List Char → List Char → List Char)
    (pat rep : List Char) (rules : List StyleRule) (content : List Char)
    (lines : List (List Char)) :
    applyStyles sub (⟨pat, []⟩ :: rules) content = applyStyles sub rules content ∧
    applyStyles sub (⟨[], rep⟩ :: rules) content = applyStyles sub rules content ∧
    applyStyles sub rules content =
      applyStyles sub
        (rules.filter (fun r => !r.pattern.isEmpty && !r.replacement.isEmpty))
        content ∧
    processDoc (applyStyles sub (⟨pat, []⟩ :: rules)) lines =
      processDoc (applyStyles sub rules) lines := by
  refine ⟨applyStyles_skip sub ⟨pat, []⟩ (by simp) rules content,
    applyStyles_skip sub ⟨[], rep⟩ (by simp) rules content,
    applyStyles_filter sub rules content, ?_⟩
  have hf : applyStyles sub (⟨pat, []⟩ :: rules) = applyStyles sub rules :=
    funext (fun c => applyStyles_skip sub ⟨pat, []⟩ (by simp) rules c)
  rw [hf]

end Book
